import Mathlib

/-!
Verification of the nightcore gateway external-request dispatch engine
(`src/gateway/server.cpp`) and the watchdog-side gateway connection
(`src/watchdog/gateway_connection.cpp`).

The correlation tables guarded by the server mutex are embedded as a state
machine: `running_external_func_calls_` is modeled by the list of its keys
(`running`), `pending_external_func_calls_` by a FIFO list (`pending`, front at
the head), and `discarded_func_calls_` by a list of `(full_call_id, client_id)`
pairs.  Call ids are allocated from `next_call_id_` exactly as in the source.
`DispatchExternalFuncCall` touches no table state except through its boolean
result and the finalization it performs, so its environment (shm creation,
dispatcher lookup, send) is a record of booleans and its observable outcome a
`FinishKind`.  Each handler (`NewExternalFuncCall`, the Complete/Failed branch
of `OnRecvMessage`, `DiscardFuncCall`, `ProcessDiscardedFuncCallIfNecessary`)
is translated line by line into a function on states.
-/

namespace Nightcore

/-- Key-set insert of `absl::flat_hash_map`: `m[id] = ctx` adds the key only
when it is not already present. -/
def mapInsert (id : Nat) (s : List Nat) : List Nat :=
  if id ∈ s then s else id :: s

/-- Key-set erase of `absl::flat_hash_map`: `m.erase(id)` removes the key. -/
def mapErase (id : Nat) (s : List Nat) : List Nat :=
  s.filter (fun x => x != id)

/-- Environment of one `Server::DispatchExternalFuncCall` run: whether the
input exceeds `MESSAGE_INLINE_DATA_SIZE` (shm path taken), whether
`ipc::ShmCreate` succeeds, whether `GetOrCreateDispatcherLocked` finds the
func id, and whether `Dispatcher::OnNewFuncCall` succeeds. -/
structure DispatchEnv where
  shmNeeded : Bool
  shmCreateOk : Bool
  dispatcherFound : Bool
  sendOk : Bool
deriving DecidableEq

/-- The four finalization variants of `Server::ExternalFuncCallContext`. -/
inductive FinishKind where
  | shmOutput
  | inlineOutput
  | error
  | dispatchFailure
deriving DecidableEq, Repr

/-- Mutex-guarded gateway state: the admission cap
(`max_running_external_requests_`), the call-id allocator (`next_call_id_`),
the key set of `running_external_func_calls_`, the FIFO
`pending_external_func_calls_` (front first), `discarded_func_calls_` as
`(full_call_id, client_id)` pairs, and a log of finalizations performed. -/
structure SState where
  cap : Nat
  nextCallId : Nat
  running : List Nat
  pending : List Nat
  discarded : List (Nat × Nat)
  finished : List (Nat × FinishKind)
deriving DecidableEq

/-- Outcome of `Server::DispatchExternalFuncCall` (lines 533-567): `none` if
it returns true; `some k` if it returns false after finalizing the context
with variant `k`.  `CreateShmInput` failure calls `FinishWithError`; a missing
dispatcher or a failed `OnNewFuncCall` calls `FinishWithDispatchFailure`. -/
def dispatchResult (env : DispatchEnv) : Option FinishKind :=
  if env.shmNeeded && !env.shmCreateOk then some FinishKind.error
  else if !env.dispatcherFound then some FinishKind.dispatchFailure
  else if !env.sendOk then some FinishKind.dispatchFailure
  else none

/-- `Server::NewExternalFuncCall` (lines 569-599), with the call id allocated
from `next_call_id_.fetch_add(1)` as in `OnExternalFuncCall`/`OnNewGrpcCall`:
under the lock, if the cap is 0 or the running set is below the cap, insert
the call into `running_external_func_calls_` and mark it for dispatch,
otherwise push it onto `pending_external_func_calls_`.  After the lock, if
the marked dispatch fails, reacquire the lock and erase the call. -/
def newExternalFuncCall (env : DispatchEnv) (s : SState) : SState :=
  let id := s.nextCallId
  let s1 : SState := { s with nextCallId := id + 1 }
  if s1.cap = 0 ∨ s1.running.length < s1.cap then
    let s2 : SState := { s1 with running := mapInsert id s1.running }
    match dispatchResult env with
    | none => s2
    | some k =>
        { s2 with running := mapErase id s2.running,
                  finished := (id, k) :: s2.finished }
  else
    { s1 with pending := s1.pending ++ [id] }

/-- Promotion step inside the Complete/Failed branch of `Server::OnRecvMessage`
(lines 456-464): if the pending queue is nonempty and the cap permits, pop the
front, move it into `running_external_func_calls_`, and remember it as the
next call to dispatch. -/
def promoteOne (s : SState) : SState × Option Nat :=
  match s.pending with
  | [] => (s, none)
  | p :: rest =>
      if s.cap = 0 ∨ s.running.length < s.cap then
        ({ s with running := mapInsert p s.running, pending := rest }, some p)
      else
        (s, none)

/-- Finalization variant chosen for an external call on a Complete/Failed
message (lines 479-489 together with `FinishWithShmOutput`, lines 322-340):
Complete with negative `payload_size` goes through the output shm
(`FinishWithError` when `ShmOpen` fails), Complete with nonnegative
`payload_size` delivers the inline payload, and Failed calls
`FinishWithError`. -/
def completionKind (isComplete : Bool) (payloadSize : Int) (shmOpenOk : Bool) :
    FinishKind :=
  if isComplete then
    if payloadSize < 0 then
      if shmOpenOk then FinishKind.shmOutput else FinishKind.error
    else FinishKind.inlineOutput
  else FinishKind.error

/-- Tail of the Complete/Failed branch (lines 494-500): dispatch the promoted
call if any; on dispatch failure, reacquire the lock and erase it from
`running_external_func_calls_` (the failed dispatch already finalized it). -/
def finishAndMaybeDispatch (p? : Option Nat) (env : DispatchEnv) (s : SState) :
    SState :=
  match p? with
  | none => s
  | some p =>
      match dispatchResult env with
      | none => s
      | some k =>
          { s with running := mapErase p s.running,
                   finished := (p, k) :: s.finished }

/-- The Complete/Failed branch of `Server::OnRecvMessage` (lines 435-500) as it
acts on the external tables: for an external call (`client_id == 0`) present in
`running_external_func_calls_`, remove it, promote the front pending call if
the cap permits, finalize the completed call with `completionKind`, and then
dispatch the promoted call, erasing it on failure.  Internal calls and unknown
external calls leave the tables unchanged. -/
def onCompleteMsg (id cid : Nat) (isComplete : Bool) (payloadSize : Int)
    (shmOpenOk : Bool) (env : DispatchEnv) (s : SState) : SState :=
  if cid = 0 ∧ id ∈ s.running then
    let s1 : SState := { s with running := mapErase id s.running }
    let pr := promoteOne s1
    let s3 : SState :=
      { pr.1 with finished :=
          (id, completionKind isComplete payloadSize shmOpenOk) :: pr.1.finished }
    finishAndMaybeDispatch pr.2 env s3
  else s

/-- `Server::DiscardFuncCall` (lines 619-623): append the call to
`discarded_func_calls_`. -/
def discardFuncCall (id cid : Nat) (s : SState) : SState :=
  { s with discarded := s.discarded ++ [(id, cid)] }

/-- First locked loop of `Server::ProcessDiscardedFuncCallIfNecessary`
(lines 631-641): walk the discarded list in order; move each external call
(`client_id == 0`) still present in `running_external_func_calls_` out of the
running set into a local list, and remember internal calls separately.
Returns `(running left, moved external ids, internal ids)`. -/
def collectDiscarded : List (Nat × Nat) → List Nat →
    List Nat × List Nat × List Nat
  | [], running => (running, [], [])
  | (id, cid) :: rest, running =>
      if cid = 0 then
        if id ∈ running then
          let r := collectDiscarded rest (mapErase id running)
          (r.1, id :: r.2.1, r.2.2)
        else
          collectDiscarded rest running
      else
        let r := collectDiscarded rest running
        (r.1, r.2.1, id :: r.2.2)

/-- Second locked loop of `Server::ProcessDiscardedFuncCallIfNecessary`
(lines 643-651): while the pending queue is nonempty and the cap permits, pop
the front, move it into `running_external_func_calls_`, and collect it for
dispatch.  Returns `(running, pending left, promoted ids in order)`. -/
def promotePending (cap : Nat) : List Nat → List Nat →
    List Nat × List Nat × List Nat
  | running, [] => (running, [], [])
  | running, p :: rest =>
      if cap = 0 ∨ running.length < cap then
        let r := promotePending cap (mapInsert p running) rest
        (r.1, r.2.1, p :: r.2.2)
      else
        (running, p :: rest, [])

/-- Dispatch loop at the tail of `ProcessDiscardedFuncCallIfNecessary`
(lines 671-679): dispatch every promoted call; on failure, erase it from
`running_external_func_calls_` (the failed dispatch already finalized it with
the kind given by `dispatchResult`).  Returns `(running, finalizations)`. -/
def dispatchPromoted (envs : Nat → DispatchEnv) : List Nat → List Nat →
    List Nat × List (Nat × FinishKind)
  | [], running => (running, [])
  | p :: rest, running =>
      match dispatchResult (envs p) with
      | none => dispatchPromoted envs rest running
      | some k =>
          let r := dispatchPromoted envs rest (mapErase p running)
          (r.1, (p, k) :: r.2)

/-- `Server::ProcessDiscardedFuncCallIfNecessary` (lines 625-680): under the
lock, drain the discarded list and promote pending calls; outside the lock,
finalize each moved external call with `FinishWithDispatchFailure`, synthesize
a Failure message (`success = false`) via `worker_lib::FuncCallFinished` for
each internal discarded call, and dispatch the promoted calls.  Returns the new
state and the synthesized `(call_id, success)` messages. -/
def processDiscarded (envs : Nat → DispatchEnv) (s : SState) :
    SState × List (Nat × Bool) :=
  let c := collectDiscarded s.discarded s.running
  let pr := promotePending s.cap c.1 s.pending
  let dp := dispatchPromoted envs pr.2.2 pr.1
  ({ s with running := dp.1,
            pending := pr.2.1,
            discarded := [],
            finished :=
              c.2.1.map (fun id => (id, FinishKind.dispatchFailure))
                ++ dp.2 ++ s.finished },
   c.2.2.map (fun id => (id, false)))

/-- Events that touch the external-call tables: external arrival
(HTTP `/function/...` or admitted gRPC call), a Complete/Failed message,
a `DiscardFuncCall`, and a discarded-call drain. -/
inductive Event where
  | arrive (env : DispatchEnv)
  | message (id cid : Nat) (isComplete : Bool) (payloadSize : Int)
      (shmOpenOk : Bool) (env : DispatchEnv)
  | discard (id cid : Nat)
  | drain (envs : Nat → DispatchEnv)

/-- One event against the server state. -/
def step (e : Event) (s : SState) : SState :=
  match e with
  | Event.arrive env => newExternalFuncCall env s
  | Event.message id cid ic ps so env => onCompleteMsg id cid ic ps so env s
  | Event.discard id cid => discardFuncCall id cid s
  | Event.drain envs => (processDiscarded envs s).1

/-- A run of the server over a list of events. -/
def run (evs : List Event) (s : SState) : SState :=
  evs.foldl (fun s e => step e s) s

/-- Freshly constructed server: empty tables, `next_call_id_ = 0`. -/
def initState (cap : Nat) : SState :=
  { cap := cap, nextCallId := 0, running := [], pending := [],
    discarded := [], finished := [] }

/-- gRPC status codes used by the gateway. -/
inductive GrpcStatus where
  | OK
  | NOT_FOUND
  | UNKNOWN
  | UNIMPLEMENTED
deriving DecidableEq, Repr

/-- Response sink of an `ExternalFuncCallContext`: `http_context_` or
`grpc_context_`. -/
inductive SinkKind where
  | http
  | grpc
deriving DecidableEq

/-- Observable response produced by finalizing a context: HTTP status plus
body, or gRPC status plus body. -/
inductive SinkResponse where
  | http (status : Nat) (body : String)
  | grpc (status : GrpcStatus) (body : String)
deriving DecidableEq

/-- `ExternalFuncCallContext::FinishWithError` (lines 355-365): HTTP 500 with
body `"Function call failed\n"`, or gRPC status `UNKNOWN`. -/
def finishWithError : SinkKind → SinkResponse
  | SinkKind.http => SinkResponse.http 500 "Function call failed\n"
  | SinkKind.grpc => SinkResponse.grpc GrpcStatus.UNKNOWN ""

/-- `ExternalFuncCallContext::FinishWithDispatchFailure` (lines 367-378):
HTTP 404 with body `"Dispatch failed for func_id N\n"`, or gRPC status
`UNIMPLEMENTED`. -/
def finishWithDispatchFailure (funcId : Nat) : SinkKind → SinkResponse
  | SinkKind.http =>
      SinkResponse.http 404
        ("Dispatch failed for func_id " ++ toString funcId ++ "\n")
  | SinkKind.grpc => SinkResponse.grpc GrpcStatus.UNIMPLEMENTED ""

/-- `ExternalFuncCallContext::FinishWithOutput` (lines 342-353): append the
inline output and finish with the default success status. -/
def finishWithOutput (output : String) : SinkKind → SinkResponse
  | SinkKind.http => SinkResponse.http 200 output
  | SinkKind.grpc => SinkResponse.grpc GrpcStatus.OK output

/-- `ExternalFuncCallContext::FinishWithShmOutput` (lines 322-340): open the
output shm region (`none` models `ShmOpen` failure); on failure fall back to
`FinishWithError`, otherwise append the region bytes and finish. -/
def finishWithShmOutput (shm : Option String) (sk : SinkKind) : SinkResponse :=
  match shm with
  | none => finishWithError sk
  | some bytes => finishWithOutput bytes sk

/-- Response produced for an external call by the Complete/Failed branch of
`OnRecvMessage` (lines 479-489): Complete with `payload_size < 0` goes through
the shm path, Complete with `payload_size >= 0` delivers the inline payload,
Failed finalizes with error. -/
def completionResp (isComplete : Bool) (payloadSize : Int)
    (shm : Option String) (inlineData : String) (sk : SinkKind) : SinkResponse :=
  if isComplete then
    if payloadSize < 0 then finishWithShmOutput shm sk
    else finishWithOutput inlineData sk
  else finishWithError sk

/-- Finalization performed inside `Server::DispatchExternalFuncCall`
(lines 533-567) when it returns false: `CreateShmInput` failure finalizes via
`FinishWithError`; a missing dispatcher or a failed `OnNewFuncCall` finalizes
via `FinishWithDispatchFailure`.  `none` when dispatch succeeds. -/
def dispatchFinishResp (env : DispatchEnv) (funcId : Nat) (sk : SinkKind) :
    Option SinkResponse :=
  if env.shmNeeded && !env.shmCreateOk then some (finishWithError sk)
  else if !env.dispatcherFound then some (finishWithDispatchFailure funcId sk)
  else if !env.sendOk then some (finishWithDispatchFailure funcId sk)
  else none

/-- One entry of `FuncConfig`: numeric func id and the gRPC method table. -/
structure FuncEntry where
  funcId : Nat
  grpcMethodIds : List (String × Nat)
deriving DecidableEq

/-- `FuncConfig::find_by_func_name`: lookup of an entry by name. -/
def findByFuncName (cfg : List (String × FuncEntry)) (name : String) :
    Option FuncEntry :=
  (cfg.find? (fun p => p.1 == name)).map Prod.snd

/-- Lookup of `grpc_method_ids` by method name. -/
def findMethod (e : FuncEntry) (method : String) : Option Nat :=
  (e.grpcMethodIds.find? (fun p => p.1 == method)).map Prod.snd

/-- `Server::OnNewGrpcCall` (lines 507-523): resolve the config entry named
`"grpc:" ++ service`; if the service or the method is unknown, finish the call
immediately with gRPC `NOT_FOUND` and touch no core state; otherwise allocate
a call id and run `NewExternalFuncCall`.  Returns the new state and the
immediate response, if any. -/
def onNewGrpcCall (cfg : List (String × FuncEntry)) (service method : String)
    (env : DispatchEnv) (s : SState) : SState × Option SinkResponse :=
  match findByFuncName cfg ("grpc:" ++ service) with
  | none => (s, some (SinkResponse.grpc GrpcStatus.NOT_FOUND ""))
  | some entry =>
      match findMethod entry method with
      | none => (s, some (SinkResponse.grpc GrpcStatus.NOT_FOUND ""))
      | some _ => (newExternalFuncCall env s, none)

/-- Message classes handled by `Server::OnRecvMessage`. -/
inductive MsgKind where
  | invokeFunc
  | funcCallComplete
  | funcCallFailed
  | unknownMsg
deriving DecidableEq

/-- Connection classes handled by `Server::OnConnectionClose`. -/
inductive ConnType where
  | http
  | grpc
  | message
  | unknownConn
deriving DecidableEq

/-- Observable side effects of the two handlers. -/
inductive Effect where
  | routeInvoke
  | routeCompletion
  | logUnknownMessage
  | drainDiscarded
  | eraseHttpConn
  | eraseGrpcConn
  | notifyLauncherDisconnected
  | notifyFuncWorkerDisconnected
  | eraseMessageConn
  | logUnknownConnection
deriving DecidableEq

/-- Effect trace of `Server::OnRecvMessage` (lines 400-505): route the message
by its class, then call `ProcessDiscardedFuncCallIfNecessary` at the tail on
every path. -/
def onRecvMessageEffects (k : MsgKind) : List Effect :=
  (match k with
   | MsgKind.invokeFunc => [Effect.routeInvoke]
   | MsgKind.funcCallComplete => [Effect.routeCompletion]
   | MsgKind.funcCallFailed => [Effect.routeCompletion]
   | MsgKind.unknownMsg => [Effect.logUnknownMessage])
  ++ [Effect.drainDiscarded]

/-- Effect trace of `Server::OnConnectionClose` (lines 210-234): erase the
connection from its set; for a message connection with a finished handshake,
notify the worker manager first.  The handler never calls
`ProcessDiscardedFuncCallIfNecessary`. -/
def onConnectionCloseEffects :
    ConnType → Bool → Bool → List Effect
  | ConnType.http, _, _ => [Effect.eraseHttpConn]
  | ConnType.grpc, _, _ => [Effect.eraseGrpcConn]
  | ConnType.message, handshakeDone, isLauncher =>
      (if handshakeDone then
        if isLauncher then [Effect.notifyLauncherDisconnected]
        else [Effect.notifyFuncWorkerDisconnected]
       else [])
      ++ [Effect.eraseMessageConn]
  | ConnType.unknownConn, _, _ => [Effect.logUnknownConnection]

/-- States of the watchdog-side `GatewayConnection`. -/
inductive GwState where
  | kCreated
  | kHandshake
  | kRunning
  | kClosing
  | kClosed
deriving DecidableEq, Repr

/-- `GatewayConnection::Start` (lines 25-34): from `kCreated` (checked by
`DCHECK`), connect and move to `kHandshake`. -/
def gwStart (_ : GwState) : GwState := GwState.kHandshake

/-- `GatewayConnection::ScheduleClose` (lines 36-43): close the pipe and move
to `kClosing` only when the state is `kHandshake` or `kRunning`; otherwise do
nothing. -/
def scheduleClose (s : GwState) : GwState :=
  if s = GwState.kHandshake ∨ s = GwState.kRunning then GwState.kClosing else s

/-- `GatewayConnection::RecvHandshakeResponse` (lines 45-57): move to
`kRunning` only when the watchdog accepts the handshake response. -/
def recvHandshakeResponse (ok : Bool) (s : GwState) : GwState :=
  if ok then GwState.kRunning else s

/-- `GatewayConnection::CloseCallback` (lines 165-168): set the state to
`kClosed`. -/
def closeCallback (_ : GwState) : GwState := GwState.kClosed

/-- The destructor's `DCHECK(state_ == kCreated || state_ == kClosed)`
(lines 21-23). -/
def destructorAllowed : GwState → Bool
  | GwState.kCreated => true
  | GwState.kClosed => true
  | _ => false

/-- Progress rank of a `GatewayConnection` state, for the forward-only
property. -/
def gwRank : GwState → Nat
  | GwState.kCreated => 0
  | GwState.kHandshake => 1
  | GwState.kRunning => 2
  | GwState.kClosing => 3
  | GwState.kClosed => 4

/-- Server invariant used for single-finalization: the tables hold no
duplicate ids, running and pending are disjoint, finalized calls have left the
tables, every id held anywhere was allocated, and every allocated id is in
exactly one of running, pending, or the finalization log. -/
def Inv (s : SState) : Prop :=
  s.running.Nodup ∧
  s.pending.Nodup ∧
  (s.finished.map Prod.fst).Nodup ∧
  (∀ x ∈ s.running, x ∉ s.pending) ∧
  (∀ q ∈ s.finished, q.1 ∉ s.running ∧ q.1 ∉ s.pending) ∧
  (∀ x ∈ s.running, x < s.nextCallId) ∧
  (∀ x ∈ s.pending, x < s.nextCallId) ∧
  (∀ q ∈ s.finished, q.1 < s.nextCallId) ∧
  (∀ id, id < s.nextCallId →
    id ∈ s.running ∨ id ∈ s.pending ∨ id ∈ s.finished.map Prod.fst)

/-- The admission cap bound: `|running| ≤ cap` whenever the cap is nonzero. -/
def CapOk (s : SState) : Prop :=
  0 < s.cap → s.running.length ≤ s.cap

theorem mem_mapInsert {x id : Nat} {s : List Nat} :
    x ∈ mapInsert id s ↔ x = id ∨ x ∈ s := by
  unfold mapInsert
  split
  · constructor
    · exact fun h => Or.inr h
    · rintro (rfl | h)
      · assumption
      · assumption
  · simp

theorem mapInsert_nodup {id : Nat} {s : List Nat} (h : s.Nodup) :
    (mapInsert id s).Nodup := by
  unfold mapInsert
  split
  · exact h
  · exact List.Nodup.cons (by assumption) h

theorem length_mapInsert_le {id : Nat} {s : List Nat} :
    (mapInsert id s).length ≤ s.length + 1 := by
  unfold mapInsert
  split
  · omega
  · simp

theorem length_mapInsert_le_cap {id : Nat} {s : List Nat} {cap : Nat}
    (h : s.length < cap) : (mapInsert id s).length ≤ cap := by
  have := @length_mapInsert_le id s
  omega

theorem mem_mapErase {x id : Nat} {s : List Nat} :
    x ∈ mapErase id s ↔ x ∈ s ∧ x ≠ id := by
  unfold mapErase
  simp [List.mem_filter]

theorem not_mem_mapErase {id : Nat} {s : List Nat} : id ∉ mapErase id s := by
  intro h
  exact (mem_mapErase.mp h).2 rfl

theorem mapErase_subset {x id : Nat} {s : List Nat} (h : x ∈ mapErase id s) :
    x ∈ s := (mem_mapErase.mp h).1

theorem mapErase_nodup {id : Nat} {s : List Nat} (h : s.Nodup) :
    (mapErase id s).Nodup := List.Nodup.filter _ h

theorem length_mapErase_le {id : Nat} {s : List Nat} :
    (mapErase id s).length ≤ s.length := List.length_filter_le _ _

theorem collect_mem_running (d : List (Nat × Nat)) (r : List Nat) (x : Nat) :
    x ∈ (collectDiscarded d r).1 ↔ x ∈ r ∧ x ∉ (collectDiscarded d r).2.1 := by
  induction d generalizing r with
  | nil => simp [collectDiscarded]
  | cons c rest ih =>
    obtain ⟨id, cid⟩ := c
    by_cases hc : cid = 0
    · by_cases hm : id ∈ r
      · simp only [collectDiscarded, hc, hm, if_pos, if_true]
        rw [ih]
        simp only [mem_mapErase, List.mem_cons]
        constructor
        · rintro ⟨⟨hr, hne⟩, hne2⟩
          exact ⟨hr, by rintro (rfl | h) <;> [exact hne rfl; exact hne2 h]⟩
        · rintro ⟨hr, hnot⟩
          refine ⟨⟨hr, fun he => hnot (Or.inl he)⟩, fun h => hnot (Or.inr h)⟩
      · simp only [collectDiscarded, hc, hm, if_pos, if_false, if_true]
        exact ih r
    · simp only [collectDiscarded, hc, if_false]
      exact ih r

theorem collect_ext_subset (d : List (Nat × Nat)) (r : List Nat) :
    ∀ x ∈ (collectDiscarded d r).2.1, x ∈ r := by
  induction d generalizing r with
  | nil => simp [collectDiscarded]
  | cons c rest ih =>
    obtain ⟨id, cid⟩ := c
    by_cases hc : cid = 0
    · by_cases hm : id ∈ r
      · simp only [collectDiscarded, hc, hm, if_pos, if_true]
        intro x hx
        rcases List.mem_cons.mp hx with rfl | hx
        · exact hm
        · exact mapErase_subset (ih (mapErase id r) x hx)
      · simp only [collectDiscarded, hc, hm, if_pos, if_false, if_true]
        exact ih r
    · simp only [collectDiscarded, hc, if_false]
      exact ih r

theorem collect_ext_nodup (d : List (Nat × Nat)) (r : List Nat) :
    (collectDiscarded d r).2.1.Nodup := by
  induction d generalizing r with
  | nil => simp [collectDiscarded]
  | cons c rest ih =>
    obtain ⟨id, cid⟩ := c
    by_cases hc : cid = 0
    · by_cases hm : id ∈ r
      · simp only [collectDiscarded, hc, hm, if_pos, if_true]
        refine List.Nodup.cons ?_ (ih (mapErase id r))
        intro hmem
        exact not_mem_mapErase (collect_ext_subset rest (mapErase id r) id hmem)
      · simp only [collectDiscarded, hc, hm, if_pos, if_false, if_true]
        exact ih r
    · simp only [collectDiscarded, hc, if_false]
      exact ih r

theorem collect_running_nodup (d : List (Nat × Nat)) (r : List Nat)
    (h : r.Nodup) : (collectDiscarded d r).1.Nodup := by
  induction d generalizing r with
  | nil => simpa [collectDiscarded]
  | cons c rest ih =>
    obtain ⟨id, cid⟩ := c
    by_cases hc : cid = 0
    · by_cases hm : id ∈ r
      · simp only [collectDiscarded, hc, hm, if_pos, if_true]
        exact ih (mapErase id r) (mapErase_nodup h)
      · simp only [collectDiscarded, hc, hm, if_pos, if_false, if_true]
        exact ih r h
    · simp only [collectDiscarded, hc, if_false]
      exact ih r h

theorem collect_running_length (d : List (Nat × Nat)) (r : List Nat) :
    (collectDiscarded d r).1.length ≤ r.length := by
  induction d generalizing r with
  | nil => simp [collectDiscarded]
  | cons c rest ih =>
    obtain ⟨id, cid⟩ := c
    by_cases hc : cid = 0
    · by_cases hm : id ∈ r
      · simp only [collectDiscarded, hc, hm, if_pos, if_true]
        exact le_trans (ih (mapErase id r)) length_mapErase_le
      · simp only [collectDiscarded, hc, hm, if_pos, if_false, if_true]
        exact ih r
    · simp only [collectDiscarded, hc, if_false]
      exact ih r

theorem collect_internals (d : List (Nat × Nat)) (r : List Nat) :
    (collectDiscarded d r).2.2
      = (d.filter (fun c => !(c.2 == 0))).map Prod.fst := by
  induction d generalizing r with
  | nil => simp [collectDiscarded]
  | cons c rest ih =>
    obtain ⟨id, cid⟩ := c
    by_cases hc : cid = 0
    · by_cases hm : id ∈ r
      · simp only [collectDiscarded, hc, hm, if_pos, if_true]
        simp [hc, ih]
      · simp only [collectDiscarded, hc, hm, if_pos, if_false, if_true]
        simp [hc, ih]
    · simp only [collectDiscarded, hc, if_false]
      simp [hc, ih]

theorem collect_ext_of_mem (d : List (Nat × Nat)) (r : List Nat)
    (id : Nat) (hd : (id, 0) ∈ d) (hr : id ∈ r) :
    id ∈ (collectDiscarded d r).2.1 := by
  induction d generalizing r with
  | nil => cases hd
  | cons c rest ih =>
    obtain ⟨id1, cid1⟩ := c
    rcases List.mem_cons.mp hd with he | hd2
    · obtain ⟨rfl, rfl⟩ := Prod.mk.injEq .. ▸ And.intro (congrArg Prod.fst he) (congrArg Prod.snd he)
      simp only [collectDiscarded, hr, if_pos, if_true]
      exact List.mem_cons_self _ _
    · by_cases hc : cid1 = 0
      · by_cases hm : id1 ∈ r
        · simp only [collectDiscarded, hc, hm, if_pos, if_true]
          by_cases he : id = id1
          · exact he ▸ List.mem_cons_self _ _
          · exact List.mem_cons_of_mem _
              (ih (mapErase id1 r) hd2 (mem_mapErase.mpr ⟨hr, he⟩))
        · simp only [collectDiscarded, hc, hm, if_pos, if_false, if_true]
          exact ih r hd2 hr
      · simp only [collectDiscarded, hc, if_false]
        exact ih r hd2 hr

theorem promote_split (cap : Nat) (r p : List Nat) :
    p = (promotePending cap r p).2.2 ++ (promotePending cap r p).2.1 := by
  induction p generalizing r with
  | nil => simp [promotePending]
  | cons q rest ih =>
    by_cases hg : cap = 0 ∨ r.length < cap
    · simp only [promotePending, hg, if_pos, List.cons_append]
      exact congrArg (q :: ·) (ih (mapInsert q r))
    · simp [promotePending, hg]

theorem promote_mem_running (cap : Nat) (r p : List Nat) (x : Nat) :
    x ∈ (promotePending cap r p).1 ↔ x ∈ r ∨ x ∈ (promotePending cap r p).2.2 := by
  induction p generalizing r with
  | nil => simp [promotePending]
  | cons q rest ih =>
    by_cases hg : cap = 0 ∨ r.length < cap
    · simp only [promotePending, hg, if_pos]
      rw [ih (mapInsert q r)]
      simp only [mem_mapInsert, List.mem_cons]
      tauto
    · simp [promotePending, hg]

theorem promote_running_nodup (cap : Nat) (r p : List Nat) (h : r.Nodup) :
    (promotePending cap r p).1.Nodup := by
  induction p generalizing r with
  | nil => simpa [promotePending]
  | cons q rest ih =>
    by_cases hg : cap = 0 ∨ r.length < cap
    · simp only [promotePending, hg, if_pos]
      exact ih (mapInsert q r) (mapInsert_nodup h)
    · simpa [promotePending, hg]

theorem promote_cap (cap : Nat) (r p : List Nat) (hcap : 0 < cap)
    (h : r.length ≤ cap) : (promotePending cap r p).1.length ≤ cap := by
  induction p generalizing r with
  | nil => simpa [promotePending]
  | cons q rest ih =>
    by_cases hg : cap = 0 ∨ r.length < cap
    · simp only [promotePending, hg, if_pos]
      refine ih (mapInsert q r) ?_
      rcases hg with hg | hg
      · omega
      · exact length_mapInsert_le_cap hg
    · simpa [promotePending, hg]

theorem dispatch_mem_running (envs : Nat → DispatchEnv) (l r : List Nat)
    (x : Nat) :
    x ∈ (dispatchPromoted envs l r).1
      ↔ x ∈ r ∧ x ∉ (dispatchPromoted envs l r).2.map Prod.fst := by
  induction l generalizing r with
  | nil => simp [dispatchPromoted]
  | cons q rest ih =>
    cases hq : dispatchResult (envs q) with
    | none =>
      simp only [dispatchPromoted, hq]
      exact ih r
    | some k =>
      simp only [dispatchPromoted, hq]
      rw [ih (mapErase q r)]
      simp only [mem_mapErase, List.map_cons, List.mem_cons]
      constructor
      · rintro ⟨⟨hr, hne⟩, hno⟩
        exact ⟨hr, by rintro (h | h) <;> [exact hne h; exact hno h]⟩
      · rintro ⟨hr, hno⟩
        exact ⟨⟨hr, fun h => hno (Or.inl h)⟩, fun h => hno (Or.inr h)⟩

theorem dispatch_fail_ids_subset (envs : Nat → DispatchEnv) (l r : List Nat) :
    ∀ x ∈ (dispatchPromoted envs l r).2.map Prod.fst, x ∈ l := by
  induction l generalizing r with
  | nil => simp [dispatchPromoted]
  | cons q rest ih =>
    cases hq : dispatchResult (envs q) with
    | none =>
      simp only [dispatchPromoted, hq]
      intro x hx
      exact List.mem_cons_of_mem _ (ih r x hx)
    | some k =>
      simp only [dispatchPromoted, hq, List.map_cons]
      intro x hx
      rcases List.mem_cons.mp hx with rfl | hx
      · exact List.mem_cons_self _ _
      · exact List.mem_cons_of_mem _ (ih (mapErase q r) x hx)

theorem dispatch_running_nodup (envs : Nat → DispatchEnv) (l r : List Nat)
    (h : r.Nodup) : (dispatchPromoted envs l r).1.Nodup := by
  induction l generalizing r with
  | nil => simpa [dispatchPromoted]
  | cons q rest ih =>
    cases hq : dispatchResult (envs q) with
    | none =>
      simp only [dispatchPromoted, hq]
      exact ih r h
    | some k =>
      simp only [dispatchPromoted, hq]
      exact ih (mapErase q r) (mapErase_nodup h)

theorem dispatch_running_length (envs : Nat → DispatchEnv) (l r : List Nat) :
    (dispatchPromoted envs l r).1.length ≤ r.length := by
  induction l generalizing r with
  | nil => simp [dispatchPromoted]
  | cons q rest ih =>
    cases hq : dispatchResult (envs q) with
    | none =>
      simp only [dispatchPromoted, hq]
      exact ih r
    | some k =>
      simp only [dispatchPromoted, hq]
      exact le_trans (ih (mapErase q r)) length_mapErase_le

theorem dispatch_fail_result (envs : Nat → DispatchEnv) (l r : List Nat) :
    ∀ q ∈ (dispatchPromoted envs l r).2,
      dispatchResult (envs q.1) = some q.2 ∧ q.1 ∈ l := by
  induction l generalizing r with
  | nil => simp [dispatchPromoted]
  | cons q rest ih =>
    cases hq : dispatchResult (envs q) with
    | none =>
      simp only [dispatchPromoted, hq]
      intro x hx
      exact ⟨(ih r x hx).1, List.mem_cons_of_mem _ (ih r x hx).2⟩
    | some k =>
      simp only [dispatchPromoted, hq]
      intro x hx
      rcases List.mem_cons.mp hx with rfl | hx
      · exact ⟨hq, List.mem_cons_self _ _⟩
      · exact ⟨(ih (mapErase q r) x hx).1,
          List.mem_cons_of_mem _ (ih (mapErase q r) x hx).2⟩

theorem dispatch_fail_of_mem (envs : Nat → DispatchEnv) (l r : List Nat)
    (p : Nat) (k : FinishKind) (hp : p ∈ l)
    (hk : dispatchResult (envs p) = some k) :
    (p, k) ∈ (dispatchPromoted envs l r).2 := by
  induction l generalizing r with
  | nil => cases hp
  | cons q rest ih =>
    rcases List.mem_cons.mp hp with rfl | hp2
    · simp only [dispatchPromoted, hk]
      exact List.mem_cons_self _ _
    · cases hq : dispatchResult (envs q) with
      | none =>
        simp only [dispatchPromoted, hq]
        exact ih r hp2
      | some k2 =>
        simp only [dispatchPromoted, hq]
        exact List.mem_cons_of_mem _ (ih (mapErase q r) hp2)

theorem dispatch_fail_ids_nodup (envs : Nat → DispatchEnv) (l r : List Nat)
    (h : l.Nodup) : ((dispatchPromoted envs l r).2.map Prod.fst).Nodup := by
  induction l generalizing r with
  | nil => simp [dispatchPromoted]
  | cons q rest ih =>
    have hq_rest : q ∉ rest := (List.nodup_cons.mp h).1
    have hrest : rest.Nodup := (List.nodup_cons.mp h).2
    cases hq : dispatchResult (envs q) with
    | none =>
      simp only [dispatchPromoted, hq]
      exact ih r hrest
    | some k =>
      simp only [dispatchPromoted, hq, List.map_cons]
      refine List.Nodup.cons ?_ (ih (mapErase q r) hrest)
      intro hmem
      exact hq_rest (dispatch_fail_ids_subset envs rest (mapErase q r) q hmem)

theorem step_cap (e : Event) (s : SState) : (step e s).cap = s.cap := by
  obtain ⟨cap, nid, run0, pend0, disc0, fin0⟩ := s
  cases e with
  | arrive env =>
    simp only [step, newExternalFuncCall]
    split
    · cases dispatchResult env <;> rfl
    · rfl
  | message id cid ic ps so env =>
    simp only [step, onCompleteMsg]
    split
    · rcases pend0 with _ | ⟨p, rest⟩
      · simp [promoteOne, finishAndMaybeDispatch]
      · simp only [promoteOne]
        split
        · simp only [finishAndMaybeDispatch]
          cases dispatchResult env <;> rfl
        · simp [finishAndMaybeDispatch]
    · rfl
  | discard id cid => rfl
  | drain envs => rfl

theorem run_cap (evs : List Event) (s : SState) : (run evs s).cap = s.cap := by
  induction evs generalizing s with
  | nil => rfl
  | cons e rest ih =>
    simp only [run, List.foldl_cons]
    rw [← run, ih, step_cap]

theorem newExternal_capOk (env : DispatchEnv) (s : SState) (h : CapOk s) :
    CapOk (newExternalFuncCall env s) := by
  obtain ⟨cap, nid, run0, pend0, disc0, fin0⟩ := s
  unfold CapOk at h ⊢
  simp only [newExternalFuncCall]
  split
  · rename_i hg
    cases hdr : dispatchResult env with
    | none =>
      simp only
      intro hcap
      rcases hg with hg | hg
      · omega
      · exact length_mapInsert_le_cap hg
    | some k =>
      simp only
      intro hcap
      refine le_trans length_mapErase_le ?_
      rcases hg with hg | hg
      · omega
      · exact length_mapInsert_le_cap hg
  · simpa using h

theorem onCompleteMsg_capOk (id cid : Nat) (ic : Bool) (ps : Int) (so : Bool)
    (env : DispatchEnv) (s : SState) (h : CapOk s) :
    CapOk (onCompleteMsg id cid ic ps so env s) := by
  obtain ⟨cap, nid, run0, pend0, disc0, fin0⟩ := s
  unfold CapOk at h ⊢
  simp only [onCompleteMsg]
  split
  · have h1 : ∀ hcap : 0 < cap, (mapErase id run0).length ≤ cap :=
      fun hcap => le_trans length_mapErase_le (h hcap)
    rcases pend0 with _ | ⟨p, rest⟩
    · simp only [promoteOne, finishAndMaybeDispatch]
      exact h1
    · simp only [promoteOne]
      split
      · rename_i hg
        simp only [finishAndMaybeDispatch]
        cases hdr : dispatchResult env with
        | none =>
          simp only
          intro hcap
          rcases hg with hg | hg
          · omega
          · exact length_mapInsert_le_cap hg
        | some k =>
          simp only
          intro hcap
          refine le_trans length_mapErase_le ?_
          rcases hg with hg | hg
          · omega
          · exact length_mapInsert_le_cap hg
      · simp only [finishAndMaybeDispatch]
        exact h1
  · exact h

theorem processDiscarded_capOk (envs : Nat → DispatchEnv) (s : SState)
    (h : CapOk s) : CapOk (processDiscarded envs s).1 := by
  intro hcap
  simp only [processDiscarded] at hcap ⊢
  refine le_trans (dispatch_running_length _ _ _) ?_
  refine promote_cap _ _ _ hcap ?_
  exact le_trans (collect_running_length _ _) (h hcap)

theorem step_capOk (e : Event) (s : SState) (h : CapOk s) : CapOk (step e s) := by
  cases e with
  | arrive env => exact newExternal_capOk env s h
  | message id cid ic ps so env => exact onCompleteMsg_capOk id cid ic ps so env s h
  | discard id cid => exact h
  | drain envs => exact processDiscarded_capOk envs s h

theorem run_capOk (evs : List Event) (s : SState) (h : CapOk s) :
    CapOk (run evs s) := by
  induction evs generalizing s with
  | nil => exact h
  | cons e rest ih =>
    simp only [run, List.foldl_cons]
    rw [← run]
    exact ih (step e s) (step_capOk e s h)

theorem newExternal_inv (env : DispatchEnv) (s : SState) (h : Inv s) :
    Inv (newExternalFuncCall env s) := by
  obtain ⟨cap, nid, run0, pend0, disc0, fin0⟩ := s
  simp only [Inv] at h
  obtain ⟨hrn, hpn, hfn, hrp, hfrp, hrlt, hplt, hflt, htot⟩ := h
  have hid_run : nid ∉ run0 := fun hmem => by have := hrlt nid hmem; omega
  have hid_pend : nid ∉ pend0 := fun hmem => by have := hplt nid hmem; omega
  have hid_fin : nid ∉ fin0.map Prod.fst := by
    intro hmem
    obtain ⟨q, hq, he⟩ := List.mem_map.mp hmem
    have := hflt q hq
    omega
  simp only [newExternalFuncCall]
  split
  · cases hdr : dispatchResult env with
    | none =>
      simp only [Inv]
      refine ⟨mapInsert_nodup hrn, hpn, hfn, ?_, ?_, ?_, ?_, ?_, ?_⟩
      · intro x hx
        rcases mem_mapInsert.mp hx with rfl | hx
        · exact hid_pend
        · exact hrp x hx
      · intro q hq
        refine ⟨?_, (hfrp q hq).2⟩
        intro hmem
        rcases mem_mapInsert.mp hmem with he | hm
        · have := hflt q hq
          omega
        · exact (hfrp q hq).1 hm
      · intro x hx
        rcases mem_mapInsert.mp hx with rfl | hx
        · omega
        · have := hrlt x hx
          omega
      · intro x hx
        have := hplt x hx
        omega
      · intro q hq
        have := hflt q hq
        omega
      · intro j hj
        by_cases hje : j = nid
        · exact Or.inl (mem_mapInsert.mpr (Or.inl hje))
        · have hj2 : j < nid := by omega
          rcases htot j hj2 with hr | hp | hf
          · exact Or.inl (mem_mapInsert.mpr (Or.inr hr))
          · exact Or.inr (Or.inl hp)
          · exact Or.inr (Or.inr hf)
    | some k =>
      simp only [Inv]
      have hermem : ∀ x : Nat,
          x ∈ mapErase nid (mapInsert nid run0) ↔ x ∈ run0 ∧ x ≠ nid := by
        intro x
        rw [mem_mapErase]
        constructor
        · rintro ⟨hx, hne⟩
          rcases mem_mapInsert.mp hx with he | hx2
          · exact absurd he hne
          · exact ⟨hx2, hne⟩
        · rintro ⟨hx, hne⟩
          exact ⟨mem_mapInsert.mpr (Or.inr hx), hne⟩
      refine ⟨mapErase_nodup (mapInsert_nodup hrn), hpn, ?_, ?_, ?_, ?_, ?_, ?_, ?_⟩
      · simp only [List.map_cons]
        exact List.Nodup.cons hid_fin hfn
      · intro x hx
        exact hrp x ((hermem x).mp hx).1
      · intro q hq
        rcases List.mem_cons.mp hq with rfl | hq2
        · exact ⟨not_mem_mapErase, hid_pend⟩
        · refine ⟨?_, (hfrp q hq2).2⟩
          intro hmem
          exact (hfrp q hq2).1 ((hermem q.1).mp hmem).1
      · intro x hx
        have := hrlt x ((hermem x).mp hx).1
        omega
      · intro x hx
        have := hplt x hx
        omega
      · intro q hq
        rcases List.mem_cons.mp hq with rfl | hq2
        · simp
        · have := hflt q hq2
          omega
      · intro j hj
        by_cases hje : j = nid
        · refine Or.inr (Or.inr ?_)
          simp [hje]
        · have hj2 : j < nid := by omega
          rcases htot j hj2 with hr | hp | hf
          · exact Or.inl ((hermem j).mpr ⟨hr, hje⟩)
          · exact Or.inr (Or.inl hp)
          · refine Or.inr (Or.inr ?_)
            simp only [List.map_cons, List.mem_cons]
            exact Or.inr hf
  · simp only [Inv]
    have hpn2 : (pend0 ++ [nid]).Nodup := by
      rw [List.nodup_append]
      refine ⟨hpn, List.nodup_singleton nid, ?_⟩
      intro a ha hb
      rcases List.mem_singleton.mp hb with rfl
      exact hid_pend ha
    refine ⟨hrn, hpn2, hfn, ?_, ?_, ?_, ?_, ?_, ?_⟩
    · intro x hx
      intro hmem
      rcases List.mem_append.mp hmem with hp | hs
      · exact hrp x hx hp
      · rcases List.mem_singleton.mp hs with rfl
        exact hid_run hx
    · intro q hq
      refine ⟨(hfrp q hq).1, ?_⟩
      intro hmem
      rcases List.mem_append.mp hmem with hp | hs
      · exact (hfrp q hq).2 hp
      · rcases List.mem_singleton.mp hs with he
        have := hflt q hq
        omega
    · intro x hx
      have := hrlt x hx
      omega
    · intro x hx
      rcases List.mem_append.mp hx with hp | hs
      · have := hplt x hp
        omega
      · rcases List.mem_singleton.mp hs with rfl
        omega
    · intro q hq
      have := hflt q hq
      omega
    · intro j hj
      by_cases hje : j = nid
      · refine Or.inr (Or.inl ?_)
        exact List.mem_append.mpr (Or.inr (List.mem_singleton.mpr hje))
      · have hj2 : j < nid := by omega
        rcases htot j hj2 with hr | hp | hf
        · exact Or.inl hr
        · exact Or.inr (Or.inl (List.mem_append.mpr (Or.inl hp)))
        · exact Or.inr (Or.inr hf)

theorem onCompleteMsg_inv (id cid : Nat) (ic : Bool) (ps : Int) (so : Bool)
    (env : DispatchEnv) (s : SState) (h : Inv s) :
    Inv (onCompleteMsg id cid ic ps so env s) := by
  obtain ⟨cap, nid, run0, pend0, disc0, fin0⟩ := s
  simp only [onCompleteMsg]
  split
  · rename_i hg
    obtain ⟨hcid, hidr⟩ := hg
    simp only [Inv] at h
    obtain ⟨hrn, hpn, hfn, hrp, hfrp, hrlt, hplt, hflt, htot⟩ := h
    have hid_nfin : id ∉ fin0.map Prod.fst := by
      intro hmem
      obtain ⟨q, hq, he⟩ := List.mem_map.mp hmem
      exact (hfrp q hq).1 (he ▸ hidr)
    have hid_np : id ∉ pend0 := hrp id hidr
    have hidlt : id < nid := hrlt id hidr
    rcases pend0 with _ | ⟨p, rest⟩
    · simp only [promoteOne, finishAndMaybeDispatch, Inv]
      refine ⟨mapErase_nodup hrn, List.nodup_nil, ?_, ?_, ?_, ?_, ?_, ?_, ?_⟩
      · simp only [List.map_cons]
        exact List.Nodup.cons hid_nfin hfn
      · intro x hx
        exact List.not_mem_nil x
      · intro q hq
        rcases List.mem_cons.mp hq with rfl | hq2
        · exact ⟨not_mem_mapErase, List.not_mem_nil id⟩
        · exact ⟨fun hm => (hfrp q hq2).1 (mapErase_subset hm), List.not_mem_nil q.1⟩
      · intro x hx
        exact hrlt x (mapErase_subset hx)
      · intro x hx
        exact absurd hx (List.not_mem_nil x)
      · intro q hq
        rcases List.mem_cons.mp hq with rfl | hq2
        · exact hidlt
        · exact hflt q hq2
      · intro j hj
        rcases htot j hj with hr | hp | hf
        · by_cases hje : j = id
          · refine Or.inr (Or.inr ?_)
            simp [List.map_cons, hje]
          · exact Or.inl (mem_mapErase.mpr ⟨hr, hje⟩)
        · exact absurd hp (List.not_mem_nil j)
        · refine Or.inr (Or.inr ?_)
          simp only [List.map_cons, List.mem_cons]
          exact Or.inr hf
    · have hp_run : p ∉ run0 := fun hm => hrp p hm (List.mem_cons_self p rest)
      have hp_rest : p ∉ rest := (List.nodup_cons.mp hpn).1
      have hrest_n : rest.Nodup := (List.nodup_cons.mp hpn).2
      have hid_ne_p : id ≠ p := fun he => hp_run (he ▸ hidr)
      have hp_fin : p ∉ fin0.map Prod.fst := by
        intro hmem
        obtain ⟨q, hq, he⟩ := List.mem_map.mp hmem
        exact (hfrp q hq).2 (he ▸ List.mem_cons_self p rest)
      have hplt2 : p < nid := hplt p (List.mem_cons_self p rest)
      simp only [promoteOne]
      split
      · simp only [finishAndMaybeDispatch]
        cases hdr : dispatchResult env with
        | none =>
          simp only [Inv]
          refine ⟨mapInsert_nodup (mapErase_nodup hrn), hrest_n, ?_, ?_, ?_, ?_,
            ?_, ?_, ?_⟩
          · simp only [List.map_cons]
            exact List.Nodup.cons hid_nfin hfn
          · intro x hx
            rcases mem_mapInsert.mp hx with rfl | hx2
            · exact hp_rest
            · exact fun hm =>
                hrp x (mapErase_subset hx2) (List.mem_cons_of_mem _ hm)
          · intro q hq
            rcases List.mem_cons.mp hq with rfl | hq2
            · refine ⟨?_, fun hm => hid_np (List.mem_cons_of_mem _ hm)⟩
              intro hm
              rcases mem_mapInsert.mp hm with he | hm2
              · exact hid_ne_p he
              · exact not_mem_mapErase hm2
            · refine ⟨?_, fun hm => (hfrp q hq2).2 (List.mem_cons_of_mem _ hm)⟩
              intro hm
              rcases mem_mapInsert.mp hm with he | hm2
              · exact (hfrp q hq2).2 (he ▸ List.mem_cons_self p rest)
              · exact (hfrp q hq2).1 (mapErase_subset hm2)
          · intro x hx
            rcases mem_mapInsert.mp hx with rfl | hx2
            · exact hplt2
            · exact hrlt x (mapErase_subset hx2)
          · intro x hx
            exact hplt x (List.mem_cons_of_mem _ hx)
          · intro q hq
            rcases List.mem_cons.mp hq with rfl | hq2
            · exact hidlt
            · exact hflt q hq2
          · intro j hj
            rcases htot j hj with hr | hpm | hf
            · by_cases hje : j = id
              · refine Or.inr (Or.inr ?_)
                simp [List.map_cons, hje]
              · exact Or.inl
                  (mem_mapInsert.mpr (Or.inr (mem_mapErase.mpr ⟨hr, hje⟩)))
            · rcases List.mem_cons.mp hpm with rfl | hm2
              · exact Or.inl (mem_mapInsert.mpr (Or.inl rfl))
              · exact Or.inr (Or.inl hm2)
            · refine Or.inr (Or.inr ?_)
              simp only [List.map_cons, List.mem_cons]
              exact Or.inr hf
        | some k2 =>
          simp only [Inv]
          have hid_nr2 : id ∉ mapInsert p (mapErase id run0) := by
            intro hm
            rcases mem_mapInsert.mp hm with he | hm2
            · exact hid_ne_p he
            · exact not_mem_mapErase hm2
          refine ⟨mapErase_nodup (mapInsert_nodup (mapErase_nodup hrn)),
            hrest_n, ?_, ?_, ?_, ?_, ?_, ?_, ?_⟩
          · simp only [List.map_cons]
            refine List.Nodup.cons ?_ (List.Nodup.cons hid_nfin hfn)
            intro hm
            rcases List.mem_cons.mp hm with he | hm2
            · exact hid_ne_p he.symm
            · exact hp_fin hm2
          · intro x hx
            have hx2 : x ∈ run0 := by
              have hne : x ≠ p := (mem_mapErase.mp hx).2
              have hx3 := (mem_mapInsert.mp (mapErase_subset hx)).resolve_left hne
              exact mapErase_subset hx3
            exact fun hm => hrp x hx2 (List.mem_cons_of_mem _ hm)
          · intro q hq
            rcases List.mem_cons.mp hq with rfl | hq2
            · exact ⟨not_mem_mapErase, hp_rest⟩
            · rcases List.mem_cons.mp hq2 with rfl | hq3
              · exact ⟨fun hm => hid_nr2 (mapErase_subset hm),
                  fun hm => hid_np (List.mem_cons_of_mem _ hm)⟩
              · refine ⟨?_, fun hm => (hfrp q hq3).2 (List.mem_cons_of_mem _ hm)⟩
                intro hm
                rcases mem_mapInsert.mp (mapErase_subset hm) with he | hm2
                · exact (hfrp q hq3).2 (he ▸ List.mem_cons_self p rest)
                · exact (hfrp q hq3).1 (mapErase_subset hm2)
          · intro x hx
            rcases mem_mapInsert.mp (mapErase_subset hx) with rfl | hx2
            · exact hplt2
            · exact hrlt x (mapErase_subset hx2)
          · intro x hx
            exact hplt x (List.mem_cons_of_mem _ hx)
          · intro q hq
            rcases List.mem_cons.mp hq with rfl | hq2
            · exact hplt2
            · rcases List.mem_cons.mp hq2 with rfl | hq3
              · exact hidlt
              · exact hflt q hq3
          · intro j hj
            rcases htot j hj with hr | hpm | hf
            · by_cases hje : j = id
              · refine Or.inr (Or.inr ?_)
                simp [List.map_cons, hje]
              · have hjnep : j ≠ p := fun he => hp_run (he ▸ hr)
                exact Or.inl (mem_mapErase.mpr
                  ⟨mem_mapInsert.mpr (Or.inr (mem_mapErase.mpr ⟨hr, hje⟩)), hjnep⟩)
            · rcases List.mem_cons.mp hpm with rfl | hm2
              · refine Or.inr (Or.inr ?_)
                simp [List.map_cons]
              · exact Or.inr (Or.inl hm2)
            · refine Or.inr (Or.inr ?_)
              simp only [List.map_cons, List.mem_cons]
              exact Or.inr (Or.inr hf)
      · simp only [finishAndMaybeDispatch, Inv]
        refine ⟨mapErase_nodup hrn, hpn, ?_, ?_, ?_, ?_, ?_, ?_, ?_⟩
        · simp only [List.map_cons]
          exact List.Nodup.cons hid_nfin hfn
        · intro x hx
          exact hrp x (mapErase_subset hx)
        · intro q hq
          rcases List.mem_cons.mp hq with rfl | hq2
          · exact ⟨not_mem_mapErase, hid_np⟩
          · exact ⟨fun hm => (hfrp q hq2).1 (mapErase_subset hm), (hfrp q hq2).2⟩
        · intro x hx
          exact hrlt x (mapErase_subset hx)
        · exact hplt
        · intro q hq
          rcases List.mem_cons.mp hq with rfl | hq2
          · exact hidlt
          · exact hflt q hq2
        · intro j hj
          rcases htot j hj with hr | hpm | hf
          · by_cases hje : j = id
            · refine Or.inr (Or.inr ?_)
              simp [List.map_cons, hje]
            · exact Or.inl (mem_mapErase.mpr ⟨hr, hje⟩)
          · exact Or.inr (Or.inl hpm)
          · refine Or.inr (Or.inr ?_)
            simp only [List.map_cons, List.mem_cons]
            exact Or.inr hf
  · exact h

theorem processDiscarded_inv (envs : Nat → DispatchEnv) (s : SState)
    (h : Inv s) : Inv (processDiscarded envs s).1 := by
  obtain ⟨cap, nid, run0, pend0, disc0, fin0⟩ := s
  simp only [Inv] at h
  obtain ⟨hrn, hpn, hfn, hrp, hfrp, hrlt, hplt, hflt, htot⟩ := h
  simp only [processDiscarded, Inv]
  set c := collectDiscarded disc0 run0 with hcdef
  set pr := promotePending cap c.1 pend0 with hprdef
  set dp := dispatchPromoted envs pr.2.2 pr.1 with hdpdef
  have hextsub : ∀ x ∈ c.2.1, x ∈ run0 := collect_ext_subset disc0 run0
  have hextnd : c.2.1.Nodup := collect_ext_nodup disc0 run0
  have hr1mem : ∀ x : Nat, x ∈ c.1 ↔ x ∈ run0 ∧ x ∉ c.2.1 :=
    collect_mem_running disc0 run0
  have hr1nd : c.1.Nodup := collect_running_nodup disc0 run0 hrn
  have hsplit : pend0 = pr.2.2 ++ pr.2.1 := promote_split cap c.1 pend0
  have hr2mem : ∀ x : Nat, x ∈ pr.1 ↔ x ∈ c.1 ∨ x ∈ pr.2.2 :=
    promote_mem_running cap c.1 pend0
  have hr2nd : pr.1.Nodup := promote_running_nodup cap c.1 pend0 hr1nd
  have hpsplnd : (pr.2.2 ++ pr.2.1).Nodup := hsplit ▸ hpn
  obtain ⟨hpromnd, hleftnd, hdisjpp⟩ := List.nodup_append.mp hpsplnd
  have hpromsub : ∀ x ∈ pr.2.2, x ∈ pend0 := by
    intro x hx
    rw [hsplit]
    exact List.mem_append.mpr (Or.inl hx)
  have hleftsub : ∀ x ∈ pr.2.1, x ∈ pend0 := by
    intro x hx
    rw [hsplit]
    exact List.mem_append.mpr (Or.inr hx)
  have hr3mem : ∀ x : Nat, x ∈ dp.1 ↔ x ∈ pr.1 ∧ x ∉ dp.2.map Prod.fst :=
    dispatch_mem_running envs pr.2.2 pr.1
  have hr3nd : dp.1.Nodup := dispatch_running_nodup envs pr.2.2 pr.1 hr2nd
  have hfailsub : ∀ x ∈ dp.2.map Prod.fst, x ∈ pr.2.2 :=
    dispatch_fail_ids_subset envs pr.2.2 pr.1
  have hfailnd : (dp.2.map Prod.fst).Nodup :=
    dispatch_fail_ids_nodup envs pr.2.2 pr.1 hpromnd
  have hfinmem : ∀ x : Nat,
      x ∈ ((c.2.1.map fun j => (j, FinishKind.dispatchFailure)) ++ dp.2
            ++ fin0).map Prod.fst
        ↔ x ∈ c.2.1 ∨ x ∈ dp.2.map Prod.fst ∨ x ∈ fin0.map Prod.fst := by
    intro x
    simp only [List.map_append, List.map_map, List.mem_append, Function.comp]
    simp
    tauto
  refine ⟨hr3nd, hleftnd, ?_, ?_, ?_, ?_, ?_, ?_, ?_⟩
  · have hids_eq :
        ((c.2.1.map fun j => (j, FinishKind.dispatchFailure)) ++ dp.2
            ++ fin0).map Prod.fst
          = c.2.1 ++ (dp.2.map Prod.fst ++ fin0.map Prod.fst) := by
      simp only [List.map_append, List.map_map]
      have hcomp : List.map (Prod.fst ∘ fun j => (j, FinishKind.dispatchFailure))
          c.2.1 = c.2.1 := List.map_id _
      rw [hcomp, List.append_assoc]
    rw [hids_eq]
    have hinner : (dp.2.map Prod.fst ++ fin0.map Prod.fst).Nodup := by
      rw [List.nodup_append]
      refine ⟨hfailnd, hfn, ?_⟩
      intro a ha hb
      obtain ⟨q, hq, he⟩ := List.mem_map.mp hb
      exact (hfrp q hq).2 (he ▸ hpromsub a (hfailsub a ha))
    rw [List.nodup_append]
    refine ⟨hextnd, hinner, ?_⟩
    intro a ha hb
    rcases List.mem_append.mp hb with hb1 | hb2
    · exact hrp a (hextsub a ha) (hpromsub a (hfailsub a hb1))
    · obtain ⟨q, hq, he⟩ := List.mem_map.mp hb2
      exact (hfrp q hq).1 (he ▸ hextsub a ha)
  · intro x hx hm
    have hx2 : x ∈ pr.1 := ((hr3mem x).mp hx).1
    rcases (hr2mem x).mp hx2 with h1 | h2
    · exact hrp x ((hr1mem x).mp h1).1 (hleftsub x hm)
    · exact hdisjpp h2 hm
  · intro q hq
    rcases List.mem_append.mp hq with hq1 | hqfin
    · rcases List.mem_append.mp hq1 with hqext | hqdp
      · obtain ⟨a, ha, he⟩ := List.mem_map.mp hqext
        subst he
        constructor
        · intro hm3
          have hm4 : a ∈ pr.1 := ((hr3mem a).mp hm3).1
          rcases (hr2mem a).mp hm4 with h1 | h2
          · exact ((hr1mem a).mp h1).2 ha
          · exact hrp a (hextsub a ha) (hpromsub a h2)
        · intro hm3
          exact hrp a (hextsub a ha) (hleftsub a hm3)
      · have hqids : q.1 ∈ dp.2.map Prod.fst := List.mem_map_of_mem Prod.fst hqdp
        constructor
        · intro hm
          exact ((hr3mem q.1).mp hm).2 hqids
        · intro hm
          exact hdisjpp (hfailsub q.1 hqids) hm
    · constructor
      · intro hm
        have hm2 : q.1 ∈ pr.1 := ((hr3mem q.1).mp hm).1
        rcases (hr2mem q.1).mp hm2 with h1 | h2
        · exact (hfrp q hqfin).1 ((hr1mem q.1).mp h1).1
        · exact (hfrp q hqfin).2 (hpromsub q.1 h2)
      · intro hm
        exact (hfrp q hqfin).2 (hleftsub q.1 hm)
  · intro x hx
    have hx2 : x ∈ pr.1 := ((hr3mem x).mp hx).1
    rcases (hr2mem x).mp hx2 with h1 | h2
    · exact hrlt x ((hr1mem x).mp h1).1
    · exact hplt x (hpromsub x h2)
  · intro x hx
    exact hplt x (hleftsub x hx)
  · intro q hq
    rcases List.mem_append.mp hq with hq1 | hqfin
    · rcases List.mem_append.mp hq1 with hqext | hqdp
      · obtain ⟨a, ha, he⟩ := List.mem_map.mp hqext
        subst he
        exact hrlt a (hextsub a ha)
      · have hqids : q.1 ∈ dp.2.map Prod.fst := List.mem_map_of_mem Prod.fst hqdp
        exact hplt q.1 (hpromsub q.1 (hfailsub q.1 hqids))
    · exact hflt q hqfin
  · intro j hj
    rcases htot j hj with hr | hpm | hf
    · by_cases hjext : j ∈ c.2.1
      · exact Or.inr (Or.inr ((hfinmem j).mpr (Or.inl hjext)))
      · have hj1 : j ∈ pr.1 := (hr2mem j).mpr (Or.inl ((hr1mem j).mpr ⟨hr, hjext⟩))
        by_cases hjdp : j ∈ dp.2.map Prod.fst
        · exact Or.inr (Or.inr ((hfinmem j).mpr (Or.inr (Or.inl hjdp))))
        · exact Or.inl ((hr3mem j).mpr ⟨hj1, hjdp⟩)
    · rcases List.mem_append.mp (hsplit ▸ hpm) with hj22 | hj21
      · have hj1 : j ∈ pr.1 := (hr2mem j).mpr (Or.inr hj22)
        by_cases hjdp : j ∈ dp.2.map Prod.fst
        · exact Or.inr (Or.inr ((hfinmem j).mpr (Or.inr (Or.inl hjdp))))
        · exact Or.inl ((hr3mem j).mpr ⟨hj1, hjdp⟩)
      · exact Or.inr (Or.inl hj21)
    · exact Or.inr (Or.inr ((hfinmem j).mpr (Or.inr (Or.inr hf))))

theorem step_inv (e : Event) (s : SState) (h : Inv s) : Inv (step e s) := by
  cases e with
  | arrive env => exact newExternal_inv env s h
  | message id cid ic ps so env => exact onCompleteMsg_inv id cid ic ps so env s h
  | discard id cid =>
    obtain ⟨cap, nid, run0, pend0, disc0, fin0⟩ := s
    exact h
  | drain envs => exact processDiscarded_inv envs s h

theorem run_inv (evs : List Event) (s : SState) (h : Inv s) : Inv (run evs s) := by
  induction evs generalizing s with
  | nil => exact h
  | cons e rest ih =>
    simp only [run, List.foldl_cons]
    rw [← run]
    exact ih (step e s) (step_inv e s h)

theorem initState_inv (cap : Nat) : Inv (initState cap) := by
  simp only [Inv, initState]
  refine ⟨List.nodup_nil, List.nodup_nil, ?_, ?_, ?_, ?_, ?_, ?_, ?_⟩ <;> simp

theorem initState_capOk (cap : Nat) : CapOk (initState cap) := by
  intro h
  simp [initState]

/-- C1: on every new external call, under the table lock: if the cap is 0 or
the running set is below the cap, the call is inserted into
`running_external_func_calls_` and marked for immediate dispatch (on a
successful dispatch it stays and nothing is finalized); otherwise it is pushed
onto `pending_external_func_calls_`.  If the immediate dispatch fails, the
call is removed from `running_external_func_calls_` again (having been
finalized by the failed dispatch), with all other entries untouched. -/
theorem admission_algorithm (env : DispatchEnv) (s : SState) :
    ((s.cap = 0 ∨ s.running.length < s.cap) →
      (newExternalFuncCall env s).pending = s.pending ∧
      (dispatchResult env = none →
        (newExternalFuncCall env s).running = mapInsert s.nextCallId s.running ∧
        (newExternalFuncCall env s).finished = s.finished) ∧
      (∀ k, dispatchResult env = some k →
        s.nextCallId ∉ (newExternalFuncCall env s).running ∧
        (∀ x, x ≠ s.nextCallId →
          (x ∈ (newExternalFuncCall env s).running ↔ x ∈ s.running)) ∧
        (newExternalFuncCall env s).finished
          = (s.nextCallId, k) :: s.finished)) ∧
    (¬ (s.cap = 0 ∨ s.running.length < s.cap) →
      (newExternalFuncCall env s).running = s.running ∧
      (newExternalFuncCall env s).pending = s.pending ++ [s.nextCallId] ∧
      (newExternalFuncCall env s).finished = s.finished) := by
  obtain ⟨cap, nid, run0, pend0, disc0, fin0⟩ := s
  simp only [newExternalFuncCall]
  split
  · rename_i hg
    cases hdr : dispatchResult env with
    | none =>
      refine ⟨fun _ => ⟨rfl, fun _ => ⟨rfl, rfl⟩, ?_⟩, fun hng => absurd hg hng⟩
      intro k hk
      cases hk
    | some k =>
      refine ⟨fun _ => ⟨rfl, ?_, ?_⟩, fun hng => absurd hg hng⟩
      · intro hnone
        cases hnone
      · intro k2 hk2
        injection hk2 with hkk
        subst hkk
        refine ⟨not_mem_mapErase, ?_, rfl⟩
        intro x hx
        rw [mem_mapErase]
        constructor
        · rintro ⟨hm, _⟩
          exact (mem_mapInsert.mp hm).resolve_left hx
        · intro hm
          exact ⟨mem_mapInsert.mpr (Or.inr hm), hx⟩
  · rename_i hng
    exact ⟨fun hg => absurd hg hng, fun _ => ⟨rfl, rfl, rfl⟩⟩

/-- C1 witness: concrete instance of the admission characterization. -/
theorem admission_algorithm_witness :
    (((initState 2).cap = 0 ∨ (initState 2).running.length < (initState 2).cap) →
      (newExternalFuncCall ⟨false, true, true, true⟩ (initState 2)).pending
          = (initState 2).pending ∧
      (dispatchResult ⟨false, true, true, true⟩ = none →
        (newExternalFuncCall ⟨false, true, true, true⟩ (initState 2)).running
            = mapInsert (initState 2).nextCallId (initState 2).running ∧
        (newExternalFuncCall ⟨false, true, true, true⟩ (initState 2)).finished
            = (initState 2).finished) ∧
      (∀ k, dispatchResult ⟨false, true, true, true⟩ = some k →
        (initState 2).nextCallId
            ∉ (newExternalFuncCall ⟨false, true, true, true⟩ (initState 2)).running ∧
        (∀ x, x ≠ (initState 2).nextCallId →
          (x ∈ (newExternalFuncCall ⟨false, true, true, true⟩ (initState 2)).running
            ↔ x ∈ (initState 2).running)) ∧
        (newExternalFuncCall ⟨false, true, true, true⟩ (initState 2)).finished
            = ((initState 2).nextCallId, k) :: (initState 2).finished)) ∧
    (¬ ((initState 2).cap = 0 ∨ (initState 2).running.length < (initState 2).cap) →
      (newExternalFuncCall ⟨false, true, true, true⟩ (initState 2)).running
          = (initState 2).running ∧
      (newExternalFuncCall ⟨false, true, true, true⟩ (initState 2)).pending
          = (initState 2).pending ++ [(initState 2).nextCallId] ∧
      (newExternalFuncCall ⟨false, true, true, true⟩ (initState 2)).finished
          = (initState 2).finished) :=
  admission_algorithm ⟨false, true, true, true⟩ (initState 2)

/-- C2: for every sequence of admission, completion, discard, and drain
events, when the cap is nonzero the running set never exceeds the cap. -/
theorem running_le_cap (cap : Nat) (evs : List Event) (h : 0 < cap) :
    (run evs (initState cap)).running.length ≤ cap := by
  have h2 := run_capOk evs (initState cap) (initState_capOk cap)
  unfold CapOk at h2
  rw [run_cap] at h2
  exact h2 h

/-- C2 witness: two arrivals against cap 1 leave at most one running call. -/
theorem running_le_cap_witness :
    (run [Event.arrive ⟨false, true, true, true⟩,
          Event.arrive ⟨false, true, true, true⟩]
        (initState 1)).running.length ≤ 1 :=
  running_le_cap 1
    [Event.arrive ⟨false, true, true, true⟩,
     Event.arrive ⟨false, true, true, true⟩] (by decide)

/-- C3: contexts leave pending_external in the order they entered it: the
completion-path promotion removes exactly the front of the pending queue and
moves it into running_external before dispatching it (so afterwards it is
either running or finalized by its failed dispatch), and the drain promotion
removes a front segment in order with the same property for each element. -/
theorem pending_fifo (id cid : Nat) (ic : Bool) (ps : Int) (so : Bool)
    (env : DispatchEnv) (envs : Nat → DispatchEnv) (s : SState) :
    ((onCompleteMsg id cid ic ps so env s).pending = s.pending ∨
      ∃ p rest, s.pending = p :: rest ∧
        (onCompleteMsg id cid ic ps so env s).pending = rest ∧
        (p ∈ (onCompleteMsg id cid ic ps so env s).running ∨
          ∃ k, (p, k) ∈ (onCompleteMsg id cid ic ps so env s).finished)) ∧
    (∃ promoted, s.pending = promoted ++ (processDiscarded envs s).1.pending ∧
      ∀ p ∈ promoted,
        p ∈ (processDiscarded envs s).1.running ∨
          ∃ k, (p, k) ∈ (processDiscarded envs s).1.finished) := by
  obtain ⟨cap, nid, run0, pend0, disc0, fin0⟩ := s
  constructor
  · simp only [onCompleteMsg]
    split
    · rcases pend0 with _ | ⟨p, rest⟩
      · exact Or.inl rfl
      · simp only [promoteOne]
        split
        · simp only [finishAndMaybeDispatch]
          cases hdr : dispatchResult env with
          | none =>
            refine Or.inr ⟨p, rest, rfl, rfl, Or.inl ?_⟩
            exact mem_mapInsert.mpr (Or.inl rfl)
          | some k =>
            refine Or.inr ⟨p, rest, rfl, rfl, Or.inr ⟨k, ?_⟩⟩
            exact List.mem_cons_self _ _
        · exact Or.inl rfl
    · exact Or.inl rfl
  · simp only [processDiscarded]
    set c := collectDiscarded disc0 run0 with hcdef
    set pr := promotePending cap c.1 pend0 with hprdef
    set dp := dispatchPromoted envs pr.2.2 pr.1 with hdpdef
    refine ⟨pr.2.2, promote_split cap c.1 pend0, ?_⟩
    intro p hp
    cases hdr : dispatchResult (envs p) with
    | none =>
      refine Or.inl ((dispatch_mem_running envs pr.2.2 pr.1 p).mpr ⟨?_, ?_⟩)
      · exact (promote_mem_running cap c.1 pend0 p).mpr (Or.inr hp)
      · intro hm
        obtain ⟨q, hq, he⟩ := List.mem_map.mp hm
        have := (dispatch_fail_result envs pr.2.2 pr.1 q hq).1
        rw [he] at this
        rw [hdr] at this
        cases this
    | some k =>
      refine Or.inr ⟨k, ?_⟩
      have hmem : (p, k) ∈ dp.2 := dispatch_fail_of_mem envs pr.2.2 pr.1 p k hp hdr
      exact List.mem_append.mpr
        (Or.inl (List.mem_append.mpr (Or.inr hmem)))

/-- C3 witness: concrete instance of the FIFO characterization. -/
theorem pending_fifo_witness :
    ((onCompleteMsg 0 0 true 0 true ⟨false, true, true, true⟩
        (initState 1)).pending = (initState 1).pending ∨
      ∃ p rest, (initState 1).pending = p :: rest ∧
        (onCompleteMsg 0 0 true 0 true ⟨false, true, true, true⟩
            (initState 1)).pending = rest ∧
        (p ∈ (onCompleteMsg 0 0 true 0 true ⟨false, true, true, true⟩
              (initState 1)).running ∨
          ∃ k, (p, k) ∈ (onCompleteMsg 0 0 true 0 true ⟨false, true, true, true⟩
              (initState 1)).finished)) ∧
    (∃ promoted, (initState 1).pending
        = promoted ++ (processDiscarded (fun _ => ⟨false, true, true, true⟩)
            (initState 1)).1.pending ∧
      ∀ p ∈ promoted,
        p ∈ (processDiscarded (fun _ => ⟨false, true, true, true⟩)
            (initState 1)).1.running ∨
          ∃ k, (p, k) ∈ (processDiscarded (fun _ => ⟨false, true, true, true⟩)
              (initState 1)).1.finished) :=
  pending_fifo 0 0 true 0 true ⟨false, true, true, true⟩
    (fun _ => ⟨false, true, true, true⟩) (initState 1)

/-- C4: on a Complete message for an external call found in running_external,
the output is delivered via the shared-memory path when `payload_size < 0`
(finalizing with error, HTTP 500 / gRPC UNKNOWN, when opening the output shm
fails) and via the inline payload when `payload_size >= 0`; a Failure message
finalizes with error.  The call leaves running_external and exactly the
corresponding finalization variant is recorded. -/
theorem completion_delivery (ps : Int) (shm : Option String)
    (inlineOut : String) (sk : SinkKind) (id : Nat) (ic so : Bool)
    (env : DispatchEnv) (s : SState) :
    (ps < 0 → completionResp true ps shm inlineOut sk = finishWithShmOutput shm sk) ∧
    (0 ≤ ps → completionResp true ps shm inlineOut sk = finishWithOutput inlineOut sk) ∧
    (finishWithShmOutput none sk = finishWithError sk) ∧
    (finishWithError SinkKind.http = SinkResponse.http 500 "Function call failed\n") ∧
    (finishWithError SinkKind.grpc = SinkResponse.grpc GrpcStatus.UNKNOWN "") ∧
    (completionResp false ps shm inlineOut sk = finishWithError sk) ∧
    (completionKind true ps so
      = if ps < 0 then (if so then FinishKind.shmOutput else FinishKind.error)
        else FinishKind.inlineOutput) ∧
    (completionKind false ps so = FinishKind.error) ∧
    (id ∈ s.running → (∀ x ∈ s.running, x ∉ s.pending) →
      id ∉ (onCompleteMsg id 0 ic ps so env s).running ∧
      (id, completionKind ic ps so) ∈ (onCompleteMsg id 0 ic ps so env s).finished) := by
  obtain ⟨cap, nid, run0, pend0, disc0, fin0⟩ := s
  refine ⟨?_, ?_, rfl, rfl, rfl, rfl, rfl, rfl, ?_⟩
  · intro h
    simp [completionResp, h]
  · intro h
    have h2 : ¬ ps < 0 := not_lt.mpr h
    simp [completionResp, h2]
  · intro hmem hdisj
    have hid_np : id ∉ pend0 := hdisj id hmem
    simp only [onCompleteMsg]
    split
    · rcases pend0 with _ | ⟨p, rest⟩
      · exact ⟨not_mem_mapErase, List.mem_cons_self _ _⟩
      · have hid_ne_p : id ≠ p := fun he => hid_np (he ▸ List.mem_cons_self p rest)
        simp only [promoteOne]
        split
        · simp only [finishAndMaybeDispatch]
          cases hdr : dispatchResult env with
          | none =>
            refine ⟨?_, List.mem_cons_self _ _⟩
            intro hm
            rcases mem_mapInsert.mp hm with he | hm2
            · exact hid_ne_p he
            · exact not_mem_mapErase hm2
          | some k2 =>
            refine ⟨?_, List.mem_cons_of_mem _ (List.mem_cons_self _ _)⟩
            intro hm
            rcases mem_mapInsert.mp (mapErase_subset hm) with he | hm2
            · exact hid_ne_p he
            · exact not_mem_mapErase hm2
        · exact ⟨not_mem_mapErase, List.mem_cons_self _ _⟩
    · rename_i hng
      exact absurd ⟨trivial, hmem⟩ hng

/-- C4 witness: concrete instance of the completion-delivery properties. -/
theorem completion_delivery_witness :
    ((-1 : Int) < 0 → completionResp true (-1) (some "out") "" SinkKind.http
        = finishWithShmOutput (some "out") SinkKind.http) ∧
    ((0 : Int) ≤ -1 → completionResp true (-1) (some "out") "" SinkKind.http
        = finishWithOutput "" SinkKind.http) ∧
    (finishWithShmOutput none SinkKind.http = finishWithError SinkKind.http) ∧
    (finishWithError SinkKind.http = SinkResponse.http 500 "Function call failed\n") ∧
    (finishWithError SinkKind.grpc = SinkResponse.grpc GrpcStatus.UNKNOWN "") ∧
    (completionResp false (-1) (some "out") "" SinkKind.http
        = finishWithError SinkKind.http) ∧
    (completionKind true (-1) true
      = if (-1 : Int) < 0 then (if true then FinishKind.shmOutput else FinishKind.error)
        else FinishKind.inlineOutput) ∧
    (completionKind false (-1) true = FinishKind.error) ∧
    (0 ∈ (({ cap := 0, nextCallId := 1, running := [0], pending := [], discarded := [], finished := [] } : SState)).running →
      (∀ x ∈ (({ cap := 0, nextCallId := 1, running := [0], pending := [], discarded := [], finished := [] } : SState)).running,
        x ∉ (({ cap := 0, nextCallId := 1, running := [0], pending := [], discarded := [], finished := [] } : SState)).pending) →
      0 ∉ (onCompleteMsg 0 0 true (-1) true ⟨false, true, true, true⟩
          { cap := 0, nextCallId := 1, running := [0], pending := [], discarded := [], finished := [] }).running ∧
      (0, completionKind true (-1) true)
        ∈ (onCompleteMsg 0 0 true (-1) true ⟨false, true, true, true⟩
          { cap := 0, nextCallId := 1, running := [0], pending := [], discarded := [], finished := [] }).finished) :=
  completion_delivery (-1) (some "out") "" SinkKind.http 0 true true
    ⟨false, true, true, true⟩
    { cap := 0, nextCallId := 1, running := [0], pending := [], discarded := [], finished := [] }

/-- C5 counterexample: with input above `MESSAGE_INLINE_DATA_SIZE` and
`ShmCreate` failing, `DispatchExternalFuncCall` finalizes the call via
`FinishWithError` (HTTP 500 body "Function call failed\n" / gRPC UNKNOWN),
not via `FinishWithDispatchFailure` (HTTP 404 / gRPC UNIMPLEMENTED) as the
claim states. -/
theorem shm_create_fail_counterexample :
    dispatchResult ⟨true, false, true, true⟩ = some FinishKind.error ∧
    dispatchFinishResp ⟨true, false, true, true⟩ 3 SinkKind.http
      = some (SinkResponse.http 500 "Function call failed\n") ∧
    dispatchFinishResp ⟨true, false, true, true⟩ 3 SinkKind.http
      ≠ some (finishWithDispatchFailure 3 SinkKind.http) ∧
    dispatchFinishResp ⟨true, false, true, true⟩ 3 SinkKind.grpc
      ≠ some (finishWithDispatchFailure 3 SinkKind.grpc) ∧
    FinishKind.error ≠ FinishKind.dispatchFailure := by
  refine ⟨rfl, rfl, ?_, by decide, by decide⟩
  intro h
  injection h with h2
  cases h2

/-- C5 amended: for an external call whose input exceeds
`MESSAGE_INLINE_DATA_SIZE`, if creating the input shm fails the call is
finalized with error (HTTP 500 body "Function call failed\n" / gRPC UNKNOWN),
`DispatchExternalFuncCall` returns false, and the caller then removes the
call from running_external. -/
theorem shm_create_fail_error (env : DispatchEnv) (fid : Nat) (s : SState)
    (h1 : env.shmNeeded = true) (h2 : env.shmCreateOk = false) :
    dispatchResult env = some FinishKind.error ∧
    dispatchFinishResp env fid SinkKind.http
      = some (SinkResponse.http 500 "Function call failed\n") ∧
    dispatchFinishResp env fid SinkKind.grpc
      = some (SinkResponse.grpc GrpcStatus.UNKNOWN "") ∧
    ((s.cap = 0 ∨ s.running.length < s.cap) →
      s.nextCallId ∉ (newExternalFuncCall env s).running ∧
      (newExternalFuncCall env s).finished
        = (s.nextCallId, FinishKind.error) :: s.finished) := by
  have hdr : dispatchResult env = some FinishKind.error := by
    simp [dispatchResult, h1, h2]
  refine ⟨hdr, ?_, ?_, ?_⟩
  · simp [dispatchFinishResp, h1, h2, finishWithError]
  · simp [dispatchFinishResp, h1, h2, finishWithError]
  · intro hg
    obtain ⟨cap, nid, run0, pend0, disc0, fin0⟩ := s
    simp only [newExternalFuncCall]
    rw [if_pos hg]
    rw [hdr]
    exact ⟨not_mem_mapErase, rfl⟩

/-- C5 amended witness: concrete shm-create failure. -/
theorem shm_create_fail_error_witness :
    dispatchResult ⟨true, false, true, true⟩ = some FinishKind.error ∧
    dispatchFinishResp ⟨true, false, true, true⟩ 3 SinkKind.http
      = some (SinkResponse.http 500 "Function call failed\n") ∧
    dispatchFinishResp ⟨true, false, true, true⟩ 3 SinkKind.grpc
      = some (SinkResponse.grpc GrpcStatus.UNKNOWN "") ∧
    (((initState 0).cap = 0 ∨ (initState 0).running.length < (initState 0).cap) →
      (initState 0).nextCallId
          ∉ (newExternalFuncCall ⟨true, false, true, true⟩ (initState 0)).running ∧
      (newExternalFuncCall ⟨true, false, true, true⟩ (initState 0)).finished
        = ((initState 0).nextCallId, FinishKind.error) :: (initState 0).finished) :=
  shm_create_fail_error ⟨true, false, true, true⟩ 3 (initState 0) rfl rfl

/-- C6: over any run from a fresh server, every allocated call that is no
longer in running_external or pending_external appears in the finalization
log exactly once (so `Finish` ran exactly once for it, with one of the four
variants); the log never records a call twice. -/
theorem finish_exactly_once (cap : Nat) (evs : List Event) (id : Nat)
    (h1 : id < (run evs (initState cap)).nextCallId)
    (h2 : id ∉ (run evs (initState cap)).running)
    (h3 : id ∉ (run evs (initState cap)).pending) :
    ((run evs (initState cap)).finished.map Prod.fst).count id = 1 := by
  have hinv := run_inv evs (initState cap) (initState_inv cap)
  simp only [Inv] at hinv
  obtain ⟨hr1, hr2, hfn, hr4, hr5, hr6, hr7, hr8, htot⟩ := hinv
  rcases htot id h1 with hr | hp | hf
  · exact absurd hr h2
  · exact absurd hp h3
  · exact List.count_eq_one_of_mem hfn hf

/-- C6 witness: one arrival whose dispatch fails is finalized exactly once. -/
theorem finish_exactly_once_witness :
    0 < (run [Event.arrive ⟨false, true, false, true⟩]
        (initState 0)).nextCallId ∧
    0 ∉ (run [Event.arrive ⟨false, true, false, true⟩] (initState 0)).running ∧
    0 ∉ (run [Event.arrive ⟨false, true, false, true⟩] (initState 0)).pending ∧
    ((run [Event.arrive ⟨false, true, false, true⟩]
        (initState 0)).finished.map Prod.fst).count 0 = 1 :=
  ⟨by decide, by decide, by decide,
    finish_exactly_once 0 [Event.arrive ⟨false, true, false, true⟩] 0
      (by decide) (by decide) (by decide)⟩

/-- C7: the discarded-call drain clears the discarded list; it synthesizes a
Failure message (success = false) for each internal discarded call, in order;
every discarded external call still present in running_external leaves the
running set and is finalized with dispatch-failure; and pending calls are
promoted from the front in order, each promoted call ending up in
running_external unless its dispatch fails, in which case it is erased and
finalized with the variant of the failed dispatch. -/
theorem drain_properties (envs : Nat → DispatchEnv) (s : SState)
    (hdisj : ∀ x ∈ s.running, x ∉ s.pending) :
    (processDiscarded envs s).1.discarded = [] ∧
    (processDiscarded envs s).2
      = (s.discarded.filter (fun c => !(c.2 == 0))).map (fun c => (c.1, false)) ∧
    (∀ c ∈ s.discarded, c.2 = 0 → c.1 ∈ s.running →
      c.1 ∉ (processDiscarded envs s).1.running ∧
      (c.1, FinishKind.dispatchFailure) ∈ (processDiscarded envs s).1.finished) ∧
    (∃ promoted, s.pending = promoted ++ (processDiscarded envs s).1.pending ∧
      ∀ p ∈ promoted,
        (dispatchResult (envs p) = none →
          p ∈ (processDiscarded envs s).1.running) ∧
        (∀ k, dispatchResult (envs p) = some k →
          p ∉ (processDiscarded envs s).1.running ∧
          (p, k) ∈ (processDiscarded envs s).1.finished)) := by
  obtain ⟨cap, nid, run0, pend0, disc0, fin0⟩ := s
  simp only [processDiscarded]
  set c := collectDiscarded disc0 run0 with hcdef
  set pr := promotePending cap c.1 pend0 with hprdef
  set dp := dispatchPromoted envs pr.2.2 pr.1 with hdpdef
  have hr1mem : ∀ x : Nat, x ∈ c.1 ↔ x ∈ run0 ∧ x ∉ c.2.1 :=
    collect_mem_running disc0 run0
  have hr2mem : ∀ x : Nat, x ∈ pr.1 ↔ x ∈ c.1 ∨ x ∈ pr.2.2 :=
    promote_mem_running cap c.1 pend0
  have hr3mem : ∀ x : Nat, x ∈ dp.1 ↔ x ∈ pr.1 ∧ x ∉ dp.2.map Prod.fst :=
    dispatch_mem_running envs pr.2.2 pr.1
  have hsplit : pend0 = pr.2.2 ++ pr.2.1 := promote_split cap c.1 pend0
  have hpromsub : ∀ x ∈ pr.2.2, x ∈ pend0 := by
    intro x hx
    rw [hsplit]
    exact List.mem_append.mpr (Or.inl hx)
  refine ⟨trivial, ?_, ?_, ?_⟩
  · rw [collect_internals disc0 run0, List.map_map]
    rfl
  · intro cc hcc hc2 hcr
    obtain ⟨a, b⟩ := cc
    simp only at hc2 hcr ⊢
    subst hc2
    have hext : a ∈ c.2.1 := collect_ext_of_mem disc0 run0 a hcc hcr
    have ha_nr1 : a ∉ c.1 := fun hm => ((hr1mem a).mp hm).2 hext
    have ha_nprom : a ∉ pr.2.2 := fun hm => hdisj a hcr (hpromsub a hm)
    have ha_nr2 : a ∉ pr.1 := fun hm =>
      ((hr2mem a).mp hm).elim ha_nr1 ha_nprom
    refine ⟨fun hm => ha_nr2 ((hr3mem a).mp hm).1, ?_⟩
    exact List.mem_append.mpr (Or.inl (List.mem_append.mpr
      (Or.inl (List.mem_map_of_mem _ hext))))
  · refine ⟨pr.2.2, hsplit, ?_⟩
    intro p hp
    constructor
    · intro hdr
      refine (hr3mem p).mpr ⟨(hr2mem p).mpr (Or.inr hp), ?_⟩
      intro hm
      obtain ⟨q, hq, he⟩ := List.mem_map.mp hm
      have hq2 := (dispatch_fail_result envs pr.2.2 pr.1 q hq).1
      rw [he, hdr] at hq2
      cases hq2
    · intro k hdr
      have hmem : (p, k) ∈ dp.2 :=
        dispatch_fail_of_mem envs pr.2.2 pr.1 p k hp hdr
      refine ⟨?_, ?_⟩
      · intro hm
        exact ((hr3mem p).mp hm).2 (List.mem_map_of_mem Prod.fst hmem)
      · exact List.mem_append.mpr (Or.inl (List.mem_append.mpr (Or.inr hmem)))

/-- C7 witness: a drain over one discarded external call and one pending
call. -/
theorem drain_properties_witness :
    (∀ x ∈ (({ cap := 1, nextCallId := 3, running := [0], pending := [1], discarded := [(0, 0)], finished := [] } : SState)).running,
      x ∉ (({ cap := 1, nextCallId := 3, running := [0], pending := [1], discarded := [(0, 0)], finished := [] } : SState)).pending) ∧
    ((processDiscarded (fun _ => ⟨false, true, true, true⟩)
        ({ cap := 1, nextCallId := 3, running := [0], pending := [1], discarded := [(0, 0)], finished := [] } : SState)).1.discarded = [] ∧
     (processDiscarded (fun _ => ⟨false, true, true, true⟩)
        ({ cap := 1, nextCallId := 3, running := [0], pending := [1], discarded := [(0, 0)], finished := [] } : SState)).2
       = ((({ cap := 1, nextCallId := 3, running := [0], pending := [1], discarded := [(0, 0)], finished := [] } : SState)).discarded.filter
            (fun c => !(c.2 == 0))).map (fun c => (c.1, false)) ∧
     (∀ c ∈ (({ cap := 1, nextCallId := 3, running := [0], pending := [1], discarded := [(0, 0)], finished := [] } : SState)).discarded,
        c.2 = 0 →
        c.1 ∈ (({ cap := 1, nextCallId := 3, running := [0], pending := [1], discarded := [(0, 0)], finished := [] } : SState)).running →
        c.1 ∉ (processDiscarded (fun _ => ⟨false, true, true, true⟩)
            ({ cap := 1, nextCallId := 3, running := [0], pending := [1], discarded := [(0, 0)], finished := [] } : SState)).1.running ∧
        (c.1, FinishKind.dispatchFailure) ∈ (processDiscarded (fun _ => ⟨false, true, true, true⟩)
            ({ cap := 1, nextCallId := 3, running := [0], pending := [1], discarded := [(0, 0)], finished := [] } : SState)).1.finished) ∧
     (∃ promoted,
        (({ cap := 1, nextCallId := 3, running := [0], pending := [1], discarded := [(0, 0)], finished := [] } : SState)).pending
          = promoted ++ (processDiscarded (fun _ => ⟨false, true, true, true⟩)
              ({ cap := 1, nextCallId := 3, running := [0], pending := [1], discarded := [(0, 0)], finished := [] } : SState)).1.pending ∧
        ∀ p ∈ promoted,
          (dispatchResult ((fun _ => (⟨false, true, true, true⟩ : DispatchEnv)) p) = none →
            p ∈ (processDiscarded (fun _ => ⟨false, true, true, true⟩)
                ({ cap := 1, nextCallId := 3, running := [0], pending := [1], discarded := [(0, 0)], finished := [] } : SState)).1.running) ∧
          (∀ k, dispatchResult ((fun _ => (⟨false, true, true, true⟩ : DispatchEnv)) p) = some k →
            p ∉ (processDiscarded (fun _ => ⟨false, true, true, true⟩)
                ({ cap := 1, nextCallId := 3, running := [0], pending := [1], discarded := [(0, 0)], finished := [] } : SState)).1.running ∧
            (p, k) ∈ (processDiscarded (fun _ => ⟨false, true, true, true⟩)
                ({ cap := 1, nextCallId := 3, running := [0], pending := [1], discarded := [(0, 0)], finished := [] } : SState)).1.finished))) :=
  ⟨by decide,
    drain_properties (fun _ => ⟨false, true, true, true⟩)
      { cap := 1, nextCallId := 3, running := [0], pending := [1], discarded := [(0, 0)], finished := [] }
      (by decide)⟩

/-- C8 counterexample: the connection-close handler (for a message connection
with a finished worker handshake, and likewise for every other connection
type) performs no discarded-call drain, contradicting the claim that the
drain runs at the tail of every connection-close handler. -/
theorem close_handler_no_drain :
    Effect.drainDiscarded ∉ onConnectionCloseEffects ConnType.message true false := by
  decide

/-- C8 amended: the drain is invoked at the tail of every `OnRecvMessage`
path (every message class), but `OnConnectionClose` never invokes it for any
connection type; discarded calls produced by a disconnect wait for the next
message or worker-handshake event. -/
theorem drain_invocation (k : MsgKind) (t : ConnType) (hd il : Bool) :
    (onRecvMessageEffects k).getLast? = some Effect.drainDiscarded ∧
    Effect.drainDiscarded ∉ onConnectionCloseEffects t hd il := by
  constructor
  · cases k <;> rfl
  · cases t <;> cases hd <;> cases il <;> decide

/-- C8 amended witness: concrete handler traces. -/
theorem drain_invocation_witness :
    (onRecvMessageEffects MsgKind.invokeFunc).getLast?
        = some Effect.drainDiscarded ∧
    Effect.drainDiscarded ∉ onConnectionCloseEffects ConnType.http true true :=
  drain_invocation MsgKind.invokeFunc ConnType.http true true

/-- C9: a gRPC call whose service has no config entry named
`"grpc:<service>"`, or whose method is unknown for a known service, is
finished immediately with NOT_FOUND; the server state (running_external,
pending_external, next call id) is returned unchanged, so no call id is
allocated and no context is created. -/
theorem grpc_unknown_not_found (cfg : List (String × FuncEntry))
    (service method : String) (env : DispatchEnv) (s : SState)
    (h : findByFuncName cfg ("grpc:" ++ service) = none ∨
      ∃ e, findByFuncName cfg ("grpc:" ++ service) = some e ∧
        findMethod e method = none) :
    onNewGrpcCall cfg service method env s
      = (s, some (SinkResponse.grpc GrpcStatus.NOT_FOUND "")) := by
  rcases h with h | ⟨e, he, hm⟩
  · simp [onNewGrpcCall, h]
  · simp [onNewGrpcCall, he, hm]

/-- C9 witness: a call against an empty config is rejected with NOT_FOUND and
no state change. -/
theorem grpc_unknown_not_found_witness :
    (findByFuncName [] ("grpc:" ++ "svc") = none ∨
      ∃ e, findByFuncName [] ("grpc:" ++ "svc") = some e ∧
        findMethod e "M" = none) ∧
    onNewGrpcCall [] "svc" "M" ⟨false, true, true, true⟩ (initState 2)
      = (initState 2, some (SinkResponse.grpc GrpcStatus.NOT_FOUND "")) :=
  ⟨Or.inl rfl,
    grpc_unknown_not_found [] "svc" "M" ⟨false, true, true, true⟩ (initState 2)
      (Or.inl rfl)⟩

/-- C10: the watchdog-side GatewayConnection close path is a forward-only
state machine: `ScheduleClose` moves to kClosing exactly from kHandshake or
kRunning and is a no-op elsewhere (so repeated calls are safe), only the
close callback produces kClosed, and the destructor admits exactly kCreated
and kClosed. -/
theorem gateway_connection_states :
    (scheduleClose GwState.kHandshake = GwState.kClosing ∧
      scheduleClose GwState.kRunning = GwState.kClosing) ∧
    (∀ s : GwState, s ≠ GwState.kHandshake → s ≠ GwState.kRunning →
      scheduleClose s = s) ∧
    (∀ s : GwState, scheduleClose (scheduleClose s) = scheduleClose s) ∧
    (∀ s : GwState, closeCallback s = GwState.kClosed) ∧
    (∀ s : GwState, s ≠ GwState.kClosed → scheduleClose s ≠ GwState.kClosed) ∧
    (∀ (ok : Bool) (s : GwState), s ≠ GwState.kClosed →
      recvHandshakeResponse ok s ≠ GwState.kClosed) ∧
    (∀ s : GwState, gwStart s ≠ GwState.kClosed) ∧
    (∀ s : GwState, destructorAllowed s = true ↔
      (s = GwState.kCreated ∨ s = GwState.kClosed)) ∧
    (∀ s : GwState, gwRank s ≤ gwRank (scheduleClose s)) := by
  refine ⟨⟨rfl, rfl⟩, ?_, ?_, ?_, ?_, ?_, ?_, ?_, ?_⟩
  · intro s h1 h2
    cases s <;> first
      | rfl
      | exact absurd rfl h1
      | exact absurd rfl h2
  · intro s
    cases s <;> decide
  · intro s
    rfl
  · intro s h1
    cases s <;> first
      | decide
      | exact absurd rfl h1
  · intro ok s h1
    cases ok
    · simpa [recvHandshakeResponse] using h1
    · simp [recvHandshakeResponse]
  · intro s h
    cases h
  · intro s
    cases s <;> decide
  · intro s
    cases s <;> decide

end Nightcore
